import Mathlib

/-!
Shallow embedding of the tikbox/id_generator core (id_generator.go).

File contents are modelled as `List Char` (one Go byte per `Char`), the Go
maps `idMap : map[int64]int` and `usedIdMap : map[int]bool` as the functions
`Int → Option Int` and `Int → Bool` (a Go map lookup of an absent key yields
the zero value, `false`). Go `int`/`int64`/`time.Duration` values are
modelled as `Int`; `Int.tdiv` is Go's truncating integer division.
Fallible file-system operations take explicit `createOk`/`writeOk` outcome
flags and return an `Except Unit` result alongside the new state.
-/

/-- The decimal digit character Go's strconv produces: the byte `'0' + d`. -/
def decDigitChar (d : Nat) : Char := Char.ofNat (48 + d)

/-- Little-endian decimal digits of `n` (the strconv formatting loop:
emit `n % 10`, continue with `n / 10` until zero), with structural fuel. -/
def natDigitsRevGo : Nat → Nat → List Char
  | 0, _ => []
  | _ + 1, 0 => []
  | fuel + 1, n + 1 => decDigitChar ((n + 1) % 10) :: natDigitsRevGo fuel ((n + 1) / 10)

/-- Little-endian decimal digits of `n` (empty for `n = 0`). -/
def natDigitsRev (n : Nat) : List Char := natDigitsRevGo n n

/-- Decimal text of a natural number, as Go strconv formats it. -/
def natToDec (n : Nat) : List Char :=
  if n = 0 then [decDigitChar 0] else (natDigitsRev n).reverse

/-- Go `strconv.Itoa`: decimal text of an integer, `'-'` prefix when negative. -/
def Itoa (n : Int) : List Char :=
  if n < 0 then '-' :: natToDec (-n).toNat else natToDec n.toNat

/-- Numeric value of a decimal digit character, `none` for a non-digit. -/
def digitVal (c : Char) : Option Nat :=
  if '0' ≤ c ∧ c ≤ '9' then some (c.toNat - 48) else none

/-- One step of Go's decimal parsing loop: `n = n*10 + digit`, failing on a
non-digit character. -/
def parseDigitsStep (acc : Option Nat) (c : Char) : Option Nat :=
  match acc, digitVal c with
  | some a, some d => some (a * 10 + d)
  | _, _ => none

/-- Digits-only parse of the unsigned part, as in Go strconv: empty input or
any non-digit character is a parse failure. -/
def parseNatDigits (l : List Char) : Option Nat :=
  if l.isEmpty then none else l.foldl parseDigitsStep (some 0)

/-- Go `strconv.Atoi` with the error discarded, as the Go code does
(`id, _ := strconv.Atoi(...)`): on any parse failure the value is 0.
An optional leading `'+'` or `'-'` sign is followed by at least one digit. -/
def Atoi (l : List Char) : Int :=
  match l with
  | [] => 0
  | c :: rest =>
    if c = '-' then
      match parseNatDigits rest with
      | some n => -(n : Int)
      | none => 0
    else if c = '+' then
      match parseNatDigits rest with
      | some n => (n : Int)
      | none => 0
    else
      match parseNatDigits (c :: rest) with
      | some n => (n : Int)
      | none => 0

/-- Go `strings.Join` with a one-character separator. -/
def stringsJoin (sep : Char) : List (List Char) → List Char
  | [] => []
  | [x] => x
  | x :: y :: t => x ++ sep :: stringsJoin sep (y :: t)

/-- Go `bytes.Split` with a one-character separator; splitting the empty
content yields one empty piece, exactly as in Go. -/
def bytesSplit (sep : Char) : List Char → List (List Char)
  | [] => [[]]
  | c :: cs =>
    match bytesSplit sep cs with
    | [] => [[]]
    | r :: rs => if c = sep then [] :: r :: rs else (c :: r) :: rs

/-- `GetId` (id_generator.go:172-183): look the key up in `idMap`; if present
and the mapped identifier is not marked used, return it, otherwise return the
sentinel 0. The function is total: it has no error outcome. -/
def GetId (idMap : Int → Option Int) (usedIdMap : Int → Bool) (key : Int) : Int :=
  match idMap key with
  | some id => if usedIdMap id then 0 else id
  | none => 0

/-- `MarkIdAsUsed` (id_generator.go:186-195): no-op for id 0, otherwise set
`usedIdMap[id] = true`. Returns the updated consumption set. -/
def MarkIdAsUsed (usedIdMap : Int → Bool) (id : Int) : Int → Bool :=
  if id = 0 then usedIdMap else fun x => if x = id then true else usedIdMap x

/-- One iteration of the `LoadIds` loop (id_generator.go:117-122): parse line
`i`, bind key `startKey + i` to it in the map and append it to the ids slice. -/
def loadStep (lines : List (List Char)) (startKey : Int)
    (acc : List Int × (Int → Option Int)) (i : Nat) : List Int × (Int → Option Int) :=
  (acc.1 ++ [Atoi (lines.getD i [])],
   fun k => if k = startKey + (i : Int) then some (Atoi (lines.getD i [])) else acc.2 k)

/-- `LoadIds` (id_generator.go:105-125): split the file content on newlines and
build the ids slice and the key map from the first `idMapLength` lines, with
keys `startKey, startKey+1, ...`. When the file holds fewer lines than
`idMapLength` the Go code indexes `idsStr[i]` out of range and panics; the
panic is modelled as `none`. -/
def LoadIds (content : List Char) (startKey : Int) (idMapLength : Nat) :
    Option (List Int × (Int → Option Int)) :=
  let lines := bytesSplit '\n' content
  if idMapLength ≤ lines.length then
    some ((List.range idMapLength).foldl (loadStep lines startKey) ([], fun _ => none))
  else none

/-- The byte content `SaveIdsToFile` (id_generator.go:151-169) writes: the
decimal texts of the pool joined by single newlines. -/
def saveContent (ids : List Int) : List Char := stringsJoin '\n' (ids.map Itoa)

/-- `SaveIdsToFile` (id_generator.go:151-169) with the file-system outcomes
explicit: `os.Create` truncates the file, then the joined decimal lines are
written. Returns the operation result and the resulting file content. -/
def SaveIdsToFile (ids : List Int) (oldFile : List Char) (createOk writeOk : Bool) :
    Except Unit Unit × List Char :=
  if createOk then
    if writeOk then (Except.ok (), saveContent ids) else (Except.error (), [])
  else (Except.error (), oldFile)

/-- The byte content `SyncIdsToFile` writes (id_generator.go:208-215): the
decimal texts of the pool entries not marked used, in pool order, joined by
single newlines. -/
def syncContent (ids : List Int) (usedIdMap : Int → Bool) : List Char :=
  stringsJoin '\n' ((ids.filter (fun id => !usedIdMap id)).map Itoa)

/-- `SyncIdsToFile` (id_generator.go:198-223) with the file-system outcomes
explicit: create (truncating) then write the unconsumed pool entries, and only
after a successful write reset `usedIdMap` to the fresh empty map. Returns the
operation result, the new consumption set and the new file content. -/
def SyncIdsToFile (ids : List Int) (usedIdMap : Int → Bool) (oldFile : List Char)
    (createOk writeOk : Bool) :
    Except Unit Unit × (Int → Bool) × List Char :=
  if createOk then
    if writeOk then (Except.ok (), fun _ => false, syncContent ids usedIdMap)
    else (Except.error (), usedIdMap, [])
  else (Except.error (), usedIdMap, oldFile)

/-- The configuration fields of the Go `IdGenerator` struct relevant to
construction (id_generator.go:23-35). -/
structure IdGenerator where
  cycleDuration : Int
  unitDuration : Int
  idCount : Int
  minId : Int
  maxId : Int
  idMapLength : Int

/-- `NewIdGenerator` (id_generator.go:38-56) with the option functions already
applied to the configuration values: it always constructs a generator and
computes `idMapLength = int(cycleDuration / unitDuration)` with Go's
truncating division; there is no validation and no error return. -/
def NewIdGenerator (cycleDuration unitDuration idCount minId maxId : Int) : IdGenerator :=
  { cycleDuration := cycleDuration
    unitDuration := unitDuration
    idCount := idCount
    minId := minId
    maxId := maxId
    idMapLength := Int.tdiv cycleDuration unitDuration }

/-- The Go slice swap `g.ids[i], g.ids[j] = g.ids[j], g.ids[i]`. -/
def swapIdx (l : List Int) (i j : Nat) : List Int :=
  (l.set i (l.getD j 0)).set j (l.getD i 0)

/-- The Fisher-Yates loop of `GenerateRandIds` (id_generator.go:144-147):
iterate i from `n` down to 1, swapping index i with index `choices i`
(modelling `rand.Intn(i+1)`, hence `choices i ≤ i`). -/
def fyLoop (choices : Nat → Nat) : Nat → List Int → List Int
  | 0, l => l
  | n + 1, l => fyLoop choices n (swapIdx l (n + 1) (choices (n + 1)))

/-- `GenerateRandIds` (id_generator.go:128-148): swap the bounds if
`minId > maxId`, fill the pool with `minId, minId+1, ..., minId+count-1`, then
Fisher-Yates shuffle it; `choices i` models the value `rand.Intn(i+1)` drawn
when the loop index is i. -/
def GenerateRandIds (count : Nat) (minId maxId : Int) (choices : Nat → Nat) : List Int :=
  let lo := if minId > maxId then maxId else minId
  let init := (List.range count).map (fun k : Nat => lo + (k : Int))
  fyLoop choices (count - 1) init

lemma digitVal_decDigitChar : ∀ d, d < 10 → digitVal (decDigitChar d) = some d := by
  decide

lemma decDigitChar_ne : ∀ d, d < 10 →
    decDigitChar d ≠ '\n' ∧ decDigitChar d ≠ '-' ∧ decDigitChar d ≠ '+' := by
  decide

lemma natDigitsRevGo_fuel : ∀ fuel m, m ≤ fuel → natDigitsRevGo fuel m = natDigitsRev m := by
  intro fuel
  induction fuel using Nat.strong_induction_on with
  | _ fuel ih =>
    intro m hm
    match fuel, m with
    | 0, 0 => rfl
    | f + 1, 0 => rfl
    | f + 1, k + 1 =>
      have hq : (k + 1) / 10 ≤ k := by
        have := Nat.div_lt_self (Nat.succ_pos k) (by norm_num : 1 < 10)
        omega
      show decDigitChar ((k + 1) % 10) :: natDigitsRevGo f ((k + 1) / 10) =
        decDigitChar ((k + 1) % 10) :: natDigitsRevGo k ((k + 1) / 10)
      rw [ih f (Nat.lt_succ_self f) _ (le_trans hq (Nat.le_of_succ_le_succ hm)),
        ih k (by omega) _ hq]

lemma natDigitsRev_succ (n : Nat) :
    natDigitsRev (n + 1) = decDigitChar ((n + 1) % 10) :: natDigitsRev ((n + 1) / 10) := by
  have hq : (n + 1) / 10 ≤ n := by
    have := Nat.div_lt_self (Nat.succ_pos n) (by norm_num : 1 < 10)
    omega
  show decDigitChar ((n + 1) % 10) :: natDigitsRevGo n ((n + 1) / 10) = _
  rw [natDigitsRevGo_fuel n ((n + 1) / 10) hq]

lemma mem_natDigitsRev (n : Nat) : ∀ c ∈ natDigitsRev n, ∃ d, d < 10 ∧ c = decDigitChar d := by
  induction n using Nat.strong_induction_on with
  | _ n ih =>
    match n with
    | 0 => intro c hc; exact absurd hc (List.not_mem_nil c)
    | k + 1 =>
      rw [natDigitsRev_succ]
      intro c hc
      rcases List.mem_cons.mp hc with h | h
      · exact ⟨(k + 1) % 10, Nat.mod_lt _ (by norm_num), h⟩
      · exact ih ((k + 1) / 10) (Nat.div_lt_self (Nat.succ_pos k) (by norm_num)) c h

lemma foldr_parse_natDigitsRev (n : Nat) : ∀ a : Nat,
    List.foldr (fun c acc => parseDigitsStep acc c) (some a) (natDigitsRev n) =
      some (a * 10 ^ (natDigitsRev n).length + n) := by
  induction n using Nat.strong_induction_on with
  | _ n ih =>
    match n with
    | 0 => intro a; simp [show natDigitsRev 0 = [] from rfl]
    | k + 1 =>
      intro a
      have hmod : (k + 1) % 10 < 10 := Nat.mod_lt _ (by norm_num)
      rw [natDigitsRev_succ]
      simp only [List.foldr_cons, List.length_cons]
      rw [ih ((k + 1) / 10) (Nat.div_lt_self (Nat.succ_pos k) (by norm_num)) a]
      simp only [parseDigitsStep, digitVal_decDigitChar ((k + 1) % 10) hmod]
      congr 1
      have hdm := Nat.div_add_mod (k + 1) 10
      calc (a * 10 ^ (natDigitsRev ((k + 1) / 10)).length + (k + 1) / 10) * 10 + (k + 1) % 10
          = a * (10 ^ (natDigitsRev ((k + 1) / 10)).length * 10) +
              ((k + 1) / 10 * 10 + (k + 1) % 10) := by ring
        _ = a * 10 ^ ((natDigitsRev ((k + 1) / 10)).length + 1) + (k + 1) := by
              rw [← pow_succ]
              omega

lemma parseNatDigits_natToDec (n : Nat) : parseNatDigits (natToDec n) = some n := by
  match n with
  | 0 => rfl
  | k + 1 =>
    have hne : natDigitsRev (k + 1) ≠ [] := by rw [natDigitsRev_succ]; simp
    rw [natToDec, if_neg (Nat.succ_ne_zero k), parseNatDigits]
    rw [if_neg (by simp [List.isEmpty_iff, hne])]
    rw [List.foldl_reverse]
    rw [foldr_parse_natDigitsRev (k + 1) 0]
    simp

lemma natToDec_ne_nil (m : Nat) : natToDec m ≠ [] := by
  match m with
  | 0 => decide
  | k + 1 =>
    rw [natToDec, if_neg (Nat.succ_ne_zero k), natDigitsRev_succ]
    simp

lemma mem_natToDec (m : Nat) : ∀ c ∈ natToDec m, ∃ d, d < 10 ∧ c = decDigitChar d := by
  match m with
  | 0 =>
    intro c hc
    exact ⟨0, by norm_num, List.mem_singleton.mp hc⟩
  | k + 1 =>
    intro c hc
    rw [natToDec, if_neg (Nat.succ_ne_zero k), List.mem_reverse] at hc
    exact mem_natDigitsRev (k + 1) c hc

lemma Atoi_natToDec (m : Nat) : Atoi (natToDec m) = (m : Int) := by
  rcases h : natToDec m with _ | ⟨c, rest⟩
  · exact absurd h (natToDec_ne_nil m)
  · obtain ⟨d, hd, rfl⟩ :=
      mem_natToDec m c (by rw [h]; exact List.mem_cons_self c rest)
    have h1 : ¬decDigitChar d = '-' := (decDigitChar_ne d hd).2.1
    have h2 : ¬decDigitChar d = '+' := (decDigitChar_ne d hd).2.2
    show Atoi (decDigitChar d :: rest) = (m : Int)
    simp only [Atoi, if_neg h1, if_neg h2]
    rw [← h, parseNatDigits_natToDec]

lemma Atoi_Itoa (n : Int) : Atoi (Itoa n) = n := by
  by_cases hn : n < 0
  · rw [Itoa, if_pos hn]
    show Atoi ('-' :: natToDec (-n).toNat) = n
    simp only [Atoi, reduceIte]
    rw [parseNatDigits_natToDec]
    show -(((-n).toNat : Nat) : Int) = n
    rw [Int.toNat_of_nonneg (by omega : (0 : Int) ≤ -n)]
    exact neg_neg n
  · rw [Itoa, if_neg hn, Atoi_natToDec, Int.toNat_of_nonneg (by omega)]

lemma newline_not_mem_natToDec (m : Nat) : '\n' ∉ natToDec m := by
  intro hmem
  obtain ⟨d, hd, hc⟩ := mem_natToDec m _ hmem
  exact (decDigitChar_ne d hd).1 hc.symm

lemma newline_not_mem_Itoa (n : Int) : '\n' ∉ Itoa n := by
  rw [Itoa]
  split
  · intro hmem
    rcases List.mem_cons.mp hmem with h | h
    · exact absurd h (by decide)
    · exact newline_not_mem_natToDec _ h
  · exact newline_not_mem_natToDec _

lemma bytesSplit_ne_nil (sep : Char) : ∀ l, bytesSplit sep l ≠ [] := by
  intro l
  induction l with
  | nil => simp [bytesSplit]
  | cons c cs ih =>
    rw [bytesSplit]
    cases hsplit : bytesSplit sep cs with
    | nil => simp
    | cons r rs => by_cases hc : c = sep <;> simp [hc]

lemma bytesSplit_append (sep : Char) : ∀ (x z : List Char), sep ∉ x →
    ∀ r rs, bytesSplit sep z = r :: rs → bytesSplit sep (x ++ z) = (x ++ r) :: rs := by
  intro x
  induction x with
  | nil => intro z h r rs hz; simpa using hz
  | cons c x' ih =>
    intro z h r rs hz
    have hc : ¬c = sep := by
      intro hcs
      exact h (hcs ▸ List.mem_cons_self c x')
    have hx' : sep ∉ x' := fun hm => h (List.mem_cons_of_mem c hm)
    show (match bytesSplit sep (x' ++ z) with
      | [] => [[]]
      | r :: rs => if c = sep then [] :: r :: rs else (c :: r) :: rs) = ((c :: x') ++ r) :: rs
    rw [ih z hx' r rs hz]
    simp only [if_neg hc, List.cons_append]

lemma bytesSplit_stringsJoin (sep : Char) :
    ∀ L : List (List Char), L ≠ [] → (∀ p ∈ L, sep ∉ p) →
      bytesSplit sep (stringsJoin sep L) = L := by
  intro L
  induction L with
  | nil => intro h _; exact absurd rfl h
  | cons x t ih =>
    intro _ hmem
    cases t with
    | nil =>
      have hx : sep ∉ x := hmem x (List.mem_cons_self x [])
      have h1 := bytesSplit_append sep x [] hx [] [] rfl
      simpa using h1
    | cons y t' =>
      have hx : sep ∉ x := hmem x (List.mem_cons_self _ _)
      have hrec : bytesSplit sep (stringsJoin sep (y :: t')) = y :: t' :=
        ih (by simp) (fun p hp => hmem p (List.mem_cons_of_mem x hp))
      show bytesSplit sep (x ++ sep :: stringsJoin sep (y :: t')) = x :: y :: t'
      have hsepcons : bytesSplit sep (sep :: stringsJoin sep (y :: t')) = [] :: y :: t' := by
        rw [bytesSplit, hrec]
        simp
      have h2 := bytesSplit_append sep x (sep :: stringsJoin sep (y :: t')) hx _ _ hsepcons
      simpa using h2

lemma getLast?_stringsJoin (sep : Char) :
    ∀ L : List (List Char), L ≠ [] → (∀ p ∈ L, p ≠ []) →
      ∃ (p : List Char) (c : Char), p ∈ L ∧ c ∈ p ∧ (stringsJoin sep L).getLast? = some c := by
  intro L
  induction L with
  | nil => intro h _; exact absurd rfl h
  | cons x t ih =>
    intro _ hne
    cases t with
    | nil =>
      have hx : x ≠ [] := hne x (List.mem_cons_self x [])
      exact ⟨x, x.getLast hx, List.mem_cons_self x [], List.getLast_mem hx,
        List.getLast?_eq_getLast x hx⟩
    | cons y t' =>
      obtain ⟨p, c, hp, hc, hlast⟩ :=
        ih (by simp) (fun p hp => hne p (List.mem_cons_of_mem x hp))
      refine ⟨p, c, List.mem_cons_of_mem x hp, hc, ?_⟩
      show (x ++ sep :: stringsJoin sep (y :: t')).getLast? = some c
      rw [List.getLast?_append]
      have hjoin : stringsJoin sep (y :: t') ≠ [] := by
        intro hj
        rw [hj] at hlast
        simp at hlast
      rw [show (sep :: stringsJoin sep (y :: t')).getLast? =
        (stringsJoin sep (y :: t')).getLast? from ?_]
      · rw [hlast]
        rfl
      · cases hcase : stringsJoin sep (y :: t') with
        | nil => exact absurd hcase hjoin
        | cons a l => exact List.getLast?_cons_cons

lemma getD_eq_getElem {α : Type} (l : List α) (d : α) (n : Nat) (h : n < l.length) :
    l.getD n d = l[n] := by
  rw [List.getD_eq_getElem?_getD, List.getElem?_eq_getElem h]
  rfl

lemma count_set_add (l : List Int) (n : Nat) (a x : Int) (h : n < l.length) :
    (l.set n a).count x + (if l.getD n 0 = x then 1 else 0) =
      l.count x + (if a = x then 1 else 0) := by
  rw [getD_eq_getElem l 0 n h]
  rw [List.set_eq_take_cons_drop a h]
  conv_rhs => rw [← List.take_append_drop n l, ← List.getElem_cons_drop l n h]
  simp only [List.count_append, List.count_cons, beq_iff_eq]
  split_ifs <;> omega

lemma swapIdx_length (l : List Int) (i j : Nat) : (swapIdx l i j).length = l.length := by
  simp [swapIdx]

lemma swapIdx_perm (l : List Int) (i j : Nat) (hi : i < l.length) (hj : j < l.length) :
    (swapIdx l i j).Perm l := by
  rw [List.perm_iff_count]
  intro x
  have h1 := count_set_add l i (l.getD j 0) x hi
  have hj' : j < (l.set i (l.getD j 0)).length := by simpa using hj
  have h2 := count_set_add (l.set i (l.getD j 0)) j (l.getD i 0) x hj'
  have hset_j : (l.set i (l.getD j 0)).getD j 0 = l.getD j 0 := by
    rw [getD_eq_getElem _ 0 j hj', List.getElem_set]
    split_ifs with hij
    · rfl
    · exact (getD_eq_getElem l 0 j hj).symm
  rw [hset_j] at h2
  show ((l.set i (l.getD j 0)).set j (l.getD i 0)).count x = l.count x
  split_ifs at h1 h2 <;> omega

lemma fyLoop_perm (choices : Nat → Nat) (hch : ∀ i, choices i ≤ i) :
    ∀ (n : Nat) (l : List Int), n < l.length → (fyLoop choices n l).Perm l := by
  intro n
  induction n with
  | zero => intro l _; exact List.Perm.refl l
  | succ m ih =>
    intro l hn
    show (fyLoop choices m (swapIdx l (m + 1) (choices (m + 1)))).Perm l
    have hperm : (swapIdx l (m + 1) (choices (m + 1))).Perm l :=
      swapIdx_perm l (m + 1) (choices (m + 1)) hn (lt_of_le_of_lt (hch (m + 1)) hn)
    have hlen : m < (swapIdx l (m + 1) (choices (m + 1))).length := by
      rw [swapIdx_length]; omega
    exact (ih _ hlen).trans hperm

lemma loadFold_fst (lines : List (List Char)) (startKey : Int) :
    ∀ (n : Nat) (acc : List Int × (Int → Option Int)),
      ((List.range n).foldl (loadStep lines startKey) acc).1 =
        acc.1 ++ (List.range n).map (fun i => Atoi (lines.getD i [])) := by
  intro n
  induction n with
  | zero => intro acc; simp
  | succ m ih =>
    intro acc
    simp only [List.range_succ, List.foldl_append, List.foldl_cons, List.foldl_nil,
      List.map_append, List.map_cons, List.map_nil]
    show ((List.range m).foldl (loadStep lines startKey) acc).1 ++ [Atoi (lines.getD m [])] = _
    rw [ih acc, List.append_assoc]

lemma loadFold_snd (lines : List (List Char)) (startKey : Int) :
    ∀ (n : Nat) (acc : List Int × (Int → Option Int)) (i : Nat), i < n →
      ((List.range n).foldl (loadStep lines startKey) acc).2 (startKey + (i : Int)) =
        some (Atoi (lines.getD i [])) := by
  intro n
  induction n with
  | zero => intro acc i h; omega
  | succ m ih =>
    intro acc i h
    simp only [List.range_succ, List.foldl_append, List.foldl_cons, List.foldl_nil]
    show (if startKey + (i : Int) = startKey + (m : Int) then some (Atoi (lines.getD m []))
      else ((List.range m).foldl (loadStep lines startKey) acc).2 (startKey + (i : Int))) =
      some (Atoi (lines.getD i []))
    by_cases him : i = m
    · subst him
      rw [if_pos rfl]
    · rw [if_neg (by omega)]
      exact ih acc i (by omega)

lemma LoadIds_eq_some (content : List Char) (startKey : Int) (idMapLength : Nat)
    (h : idMapLength ≤ (bytesSplit '\n' content).length) :
    LoadIds content startKey idMapLength =
      some ((List.range idMapLength).foldl (loadStep (bytesSplit '\n' content) startKey)
        ([], fun _ => none)) := by
  simp only [LoadIds]
  rw [if_pos h]

lemma range_map_getD_eq_take (lines : List (List Char)) (n : Nat) (h : n ≤ lines.length) :
    (List.range n).map (fun i => Atoi (lines.getD i [])) = (lines.take n).map Atoi := by
  apply List.ext_getElem
  · simp [Nat.min_eq_left h]
  · intro i h1 h2
    simp only [List.getElem_map, List.getElem_range, List.getElem_take]
    congr 1
    have hi : i < lines.length := by
      simp only [List.length_map, List.length_range] at h1
      omega
    rw [List.getD_eq_getElem?_getD, List.getElem?_eq_getElem hi]
    rfl

/-- Claim C1: for every key, `GetId` returns the mapped identifier exactly when
the key is present in `idMap` and the identifier is not in the consumption
set; in every other case (key absent, or mapped identifier already consumed)
it returns the sentinel 0. `GetId` is a total function into `Int` — it has no
error outcome. -/
theorem GetId_spec (idMap : Int → Option Int) (usedIdMap : Int → Bool) (key : Int) :
    (∀ id, idMap key = some id → usedIdMap id = false → GetId idMap usedIdMap key = id) ∧
    (∀ id, idMap key = some id → usedIdMap id = true → GetId idMap usedIdMap key = 0) ∧
    (idMap key = none → GetId idMap usedIdMap key = 0) := by
  refine ⟨?_, ?_, ?_⟩
  · intro id hm hu
    simp [GetId, hm, hu]
  · intro id hm hu
    simp [GetId, hm, hu]
  · intro hm
    simp [GetId, hm]

/-- Witness for C1 at a concrete one-entry map: key 5 maps to the unconsumed
identifier 7 and `GetId` returns it. -/
theorem GetId_spec_witness :
    GetId (fun k => if k = 5 then some 7 else none) (fun _ => false) 5 = 7 :=
  (GetId_spec (fun k => if k = 5 then some 7 else none) (fun _ => false) 5).1 7 (by simp) rfl

/-- Claim C3: `MarkIdAsUsed 0` leaves the consumption set unchanged (no-op);
for a nonzero id it updates the set to its old value union that id and changes
nothing else, it is idempotent, and afterwards `GetId` returns 0 for every key
whose mapping is that id. -/
theorem MarkIdAsUsed_spec (usedIdMap : Int → Bool) (id : Int) :
    MarkIdAsUsed usedIdMap 0 = usedIdMap ∧
    (id ≠ 0 →
      (∀ x, MarkIdAsUsed usedIdMap id x = (usedIdMap x || decide (x = id))) ∧
      MarkIdAsUsed (MarkIdAsUsed usedIdMap id) id = MarkIdAsUsed usedIdMap id ∧
      (∀ (idMap : Int → Option Int) (k : Int), idMap k = some id →
        GetId idMap (MarkIdAsUsed usedIdMap id) k = 0)) := by
  constructor
  · rw [MarkIdAsUsed, if_pos rfl]
  · intro hid
    refine ⟨?_, ?_, ?_⟩
    · intro x
      simp only [MarkIdAsUsed, if_neg hid]
      by_cases hx : x = id <;> simp [hx]
    · funext x
      simp only [MarkIdAsUsed, if_neg hid]
      by_cases hx : x = id <;> simp [hx]
    · intro idMap k hk
      simp [GetId, hk, MarkIdAsUsed, if_neg hid]

/-- Witness for C3: after marking 7 as used, `GetId` on the key mapped to 7
returns 0. -/
theorem MarkIdAsUsed_spec_witness :
    GetId (fun k => if k = 5 then some 7 else none)
      (MarkIdAsUsed (fun _ => false) 7) 5 = 0 :=
  ((MarkIdAsUsed_spec (fun _ => false) 7).2 (by decide)).2.2
    (fun k => if k = 5 then some 7 else none) 5 (by simp)

/-- Claim C6 (code bug): with idMapLength 2 but only one line in the file,
`LoadIds` hits an out-of-range index — the Go code panics (modelled here as
`none`) instead of returning the explicit pool-underrun error the spec
requires. -/
theorem LoadIds_underrun_fault : LoadIds [decDigitChar 7] 0 2 = none := rfl

/-- Claim C8 (code bug): `NewIdGenerator` performs no validation. With
cycleDuration 3 and unitDuration 2 — not an exact multiple — construction
nevertheless succeeds and silently truncates idMapLength to 1, instead of
rejecting the configuration as an invariant violation. -/
theorem NewIdGenerator_accepts_inexact_multiple :
    (3 : Int) % 2 ≠ 0 ∧ (NewIdGenerator 3 2 10 1 5).idMapLength = 1 := by
  exact ⟨by decide, rfl⟩

/-- Claim C10 (implicit): if `SyncIdsToFile` fails (file creation or write
failure) the in-memory consumption set is unchanged; it is reset to the empty
set only when the write succeeds. -/
theorem SyncIdsToFile_failure_preserves_used (ids : List Int) (usedIdMap : Int → Bool)
    (oldFile : List Char) (createOk writeOk : Bool) :
    ((SyncIdsToFile ids usedIdMap oldFile createOk writeOk).1 = Except.error () →
      (SyncIdsToFile ids usedIdMap oldFile createOk writeOk).2.1 = usedIdMap) ∧
    ((SyncIdsToFile ids usedIdMap oldFile createOk writeOk).1 = Except.ok () →
      (SyncIdsToFile ids usedIdMap oldFile createOk writeOk).2.1 = fun _ => false) := by
  cases createOk <;> cases writeOk <;> simp [SyncIdsToFile]

/-- Witness for C10: a failed create leaves the consumption set untouched. -/
theorem SyncIdsToFile_failure_witness :
    (SyncIdsToFile [3] (fun x => decide (x = 3)) [] false false).2.1 =
      fun x => decide (x = 3) :=
  (SyncIdsToFile_failure_preserves_used [3] (fun x => decide (x = 3)) [] false false).1 rfl

lemma newline_not_mem_map_Itoa (l : List Int) : ∀ p ∈ l.map Itoa, '\n' ∉ p := by
  intro p hp
  obtain ⟨x, _, rfl⟩ := List.mem_map.mp hp
  exact newline_not_mem_Itoa x

lemma Itoa_ne_nil (n : Int) : Itoa n ≠ [] := by
  rw [Itoa]
  split
  · simp
  · exact natToDec_ne_nil _

/-- Claim C4: round trip — saving a pool with at least idMapLength entries and
then loading with start key K reconstructs a map whose entries for keys
K, K+1, ..., K+idMapLength-1 are the saved identifiers, in order. -/
theorem SaveLoad_roundTrip (pool : List Int) (startKey : Int) (idMapLength : Nat)
    (h : idMapLength ≤ pool.length) :
    ∃ st, LoadIds (saveContent pool) startKey idMapLength = some st ∧
      ∀ i : Nat, i < idMapLength → st.2 (startKey + (i : Int)) = pool[i]? := by
  by_cases hpool : pool = []
  · subst hpool
    have h0 : idMapLength = 0 := by simpa using h
    subst h0
    exact ⟨_, rfl, fun i hi => absurd hi (by omega)⟩
  · have hmap_ne : pool.map Itoa ≠ [] := by simpa using hpool
    have hlines : bytesSplit '\n' (saveContent pool) = pool.map Itoa :=
      bytesSplit_stringsJoin '\n' (pool.map Itoa) hmap_ne (newline_not_mem_map_Itoa pool)
    have hlen : idMapLength ≤ (bytesSplit '\n' (saveContent pool)).length := by
      rw [hlines, List.length_map]
      exact h
    refine ⟨_, LoadIds_eq_some _ _ _ hlen, ?_⟩
    intro i hi
    rw [loadFold_snd _ _ idMapLength _ i hi]
    have hi' : i < pool.length := lt_of_lt_of_le hi h
    have hgd : (bytesSplit '\n' (saveContent pool)).getD i [] = Itoa pool[i] := by
      rw [hlines, getD_eq_getElem _ [] i (by simpa using hi')]
      simp
    rw [hgd, Atoi_Itoa, List.getElem?_eq_getElem hi']

/-- Witness for C4: the pool [3, 4] saved and loaded with start key 100 and
idMapLength 2 maps keys 100 and 101 to 3 and 4. -/
theorem SaveLoad_roundTrip_witness :
    ∃ st, LoadIds (saveContent [3, 4]) 100 2 = some st ∧
      ∀ i : Nat, i < 2 → st.2 (100 + (i : Int)) = ([3, 4] : List Int)[i]? :=
  SaveLoad_roundTrip [3, 4] 100 2 (by decide)

/-- Claim C9: a successful save writes exactly the decimal text of each pool
identifier, one per line, joined by single newlines with no trailing line
terminator, and the written content replaces the previous file contents
entirely (it does not depend on them). -/
theorem SaveIdsToFile_spec (pool : List Int) (oldFile : List Char) (h : pool ≠ []) :
    (SaveIdsToFile pool oldFile true true).2 = saveContent pool ∧
    bytesSplit '\n' (saveContent pool) = pool.map Itoa ∧
    (bytesSplit '\n' (saveContent pool)).map Atoi = pool ∧
    (saveContent pool).getLast? ≠ some '\n' := by
  have hmap_ne : pool.map Itoa ≠ [] := by simpa using h
  have hsplit : bytesSplit '\n' (saveContent pool) = pool.map Itoa :=
    bytesSplit_stringsJoin '\n' (pool.map Itoa) hmap_ne (newline_not_mem_map_Itoa pool)
  refine ⟨rfl, hsplit, ?_, ?_⟩
  · rw [hsplit, List.map_map]
    have hcomp : (Atoi ∘ Itoa) = id := funext Atoi_Itoa
    rw [hcomp, List.map_id]
  · have hne : ∀ p ∈ pool.map Itoa, p ≠ [] := by
      intro p hp
      obtain ⟨x, _, rfl⟩ := List.mem_map.mp hp
      exact Itoa_ne_nil x
    obtain ⟨p, c, hp, hc, hlast⟩ := getLast?_stringsJoin '\n' (pool.map Itoa) hmap_ne hne
    show (stringsJoin '\n' (pool.map Itoa)).getLast? ≠ some '\n'
    rw [hlast]
    obtain ⟨x, _, rfl⟩ := List.mem_map.mp hp
    have hcne : c ≠ '\n' := fun hcc => newline_not_mem_Itoa x (hcc ▸ hc)
    simp [hcne]

/-- Witness for C9 at the one-element pool [7], previous file content "a". -/
theorem SaveIdsToFile_spec_witness :
    (SaveIdsToFile [7] ['a'] true true).2 = saveContent [7] ∧
    bytesSplit '\n' (saveContent [7]) = ([7] : List Int).map Itoa ∧
    (bytesSplit '\n' (saveContent [7])).map Atoi = [7] ∧
    (saveContent ([7] : List Int)).getLast? ≠ some '\n' :=
  SaveIdsToFile_spec [7] ['a'] (by decide)

/-- Claim C7 counterexample: with sink contents "5\n6" (two lines) and
idMapLength 1, `LoadIds` succeeds but builds the flat pool [5] — only the
first idMapLength lines — not the full file contents [5, 6] the claim
asserts. -/
theorem LoadIds_counter_full_contents :
    (LoadIds (saveContent [5, 6]) 0 1).map Prod.fst = some [5] ∧
      ¬((LoadIds (saveContent [5, 6]) 0 1).map Prod.fst = some [5, 6]) := by
  exact ⟨rfl, by decide⟩

/-- Claim C7 amended: a successful load builds the flat pool from exactly the
first idMapLength lines of the sink, parsed in file order (lines beyond the
first idMapLength are not loaded). -/
theorem LoadIds_firstLines (content : List Char) (startKey : Int) (idMapLength : Nat)
    (h : idMapLength ≤ (bytesSplit '\n' content).length) :
    ∃ st, LoadIds content startKey idMapLength = some st ∧
      st.1 = ((bytesSplit '\n' content).take idMapLength).map Atoi := by
  refine ⟨_, LoadIds_eq_some _ _ _ h, ?_⟩
  rw [loadFold_fst]
  rw [range_map_getD_eq_take _ _ h]
  simp

/-- Witness for C7 amended: loading "5\n6" with idMapLength 1 gives the pool
made of the first line only. -/
theorem LoadIds_firstLines_witness :
    ∃ st, LoadIds (saveContent [5, 6]) 0 1 = some st ∧
      st.1 = ((bytesSplit '\n' (saveContent [5, 6])).take 1).map Atoi :=
  LoadIds_firstLines (saveContent [5, 6]) 0 1 (by decide)

/-- Claim C2: a successful rollover writes to the sink exactly the pool
identifiers not in the consumption set, in pool order (as decimal lines), and
clears the consumption set; consequently any identifier produced by a
subsequent successful load of the written content was not consumed in the
prior cycle. The hypothesis `usedIdMap 0 = false` is the invariant maintained
by `MarkIdAsUsed`, which never marks the sentinel 0 as used. -/
theorem SyncIdsToFile_spec (ids : List Int) (usedIdMap : Int → Bool) (oldFile : List Char)
    (h0 : usedIdMap 0 = false) :
    (ids.filter (fun id => !usedIdMap id) ≠ [] →
      bytesSplit '\n' (syncContent ids usedIdMap) =
        (ids.filter (fun id => !usedIdMap id)).map Itoa) ∧
    (SyncIdsToFile ids usedIdMap oldFile true true).2.1 = (fun _ => false) ∧
    (∀ (startKey : Int) (idMapLength : Nat) st,
      LoadIds (syncContent ids usedIdMap) startKey idMapLength = some st →
      ∀ x ∈ st.1, usedIdMap x = false) := by
  refine ⟨?_, rfl, ?_⟩
  · intro hne
    exact bytesSplit_stringsJoin '\n' _ (by simpa using hne) (newline_not_mem_map_Itoa _)
  · intro startKey idMapLength st hload x hx
    have hline : ∀ p ∈ bytesSplit '\n' (syncContent ids usedIdMap),
        usedIdMap (Atoi p) = false := by
      by_cases hkept : ids.filter (fun id => !usedIdMap id) = []
      · intro p hp
        have hcontent : syncContent ids usedIdMap = [] := by
          rw [syncContent, hkept]
          rfl
        rw [hcontent] at hp
        have hpnil : p = ([] : List Char) := by simpa [bytesSplit] using hp
        rw [hpnil]
        exact h0
      · intro p hp
        have hsplit2 : bytesSplit '\n' (syncContent ids usedIdMap) =
            (ids.filter (fun id => !usedIdMap id)).map Itoa :=
          bytesSplit_stringsJoin '\n' _ (by simpa using hkept) (newline_not_mem_map_Itoa _)
        rw [hsplit2] at hp
        obtain ⟨y, hy, rfl⟩ := List.mem_map.mp hp
        rw [Atoi_Itoa]
        simpa using (List.mem_filter.mp hy).2
    simp only [LoadIds] at hload
    by_cases hlen : idMapLength ≤ (bytesSplit '\n' (syncContent ids usedIdMap)).length
    · rw [if_pos hlen] at hload
      have hst := Option.some.inj hload
      rw [← hst] at hx
      rw [loadFold_fst] at hx
      simp only [List.nil_append] at hx
      obtain ⟨i, hi, hxi⟩ := List.mem_map.mp hx
      have hilen : i < (bytesSplit '\n' (syncContent ids usedIdMap)).length :=
        lt_of_lt_of_le (List.mem_range.mp hi) hlen
      rw [← hxi]
      apply hline
      rw [getD_eq_getElem _ [] i hilen]
      exact List.getElem_mem hilen
    · rw [if_neg hlen] at hload
      exact absurd hload (by simp)

/-- Witness for C2: pool [1, 2, 3] with 2 consumed; the sink receives the
lines "1" and "3" and a reload yields only unconsumed identifiers. -/
theorem SyncIdsToFile_spec_witness :
    (([1, 2, 3] : List Int).filter (fun id => !(fun x => decide (x = 2)) id) ≠ [] →
      bytesSplit '\n' (syncContent [1, 2, 3] (fun x => decide (x = 2))) =
        (([1, 2, 3] : List Int).filter (fun id => !(fun x => decide (x = 2)) id)).map Itoa) ∧
    (SyncIdsToFile [1, 2, 3] (fun x => decide (x = 2)) [] true true).2.1 =
      (fun _ => false) ∧
    (∀ (startKey : Int) (idMapLength : Nat) st,
      LoadIds (syncContent [1, 2, 3] (fun x => decide (x = 2))) startKey idMapLength =
        some st → ∀ x ∈ st.1, (fun x => decide (x = 2)) x = false) :=
  SyncIdsToFile_spec [1, 2, 3] (fun x => decide (x = 2)) [] (by decide)

/-- Claim C5: with count ≤ max − min (the bounds swapped first when
min > max) and any sequence of in-range shuffle choices (`choices i ≤ i`, the
contract of `rand.Intn(i+1)`), `GenerateRandIds` produces a pool with exactly
count entries, pairwise distinct, all within the half-open range. -/
theorem GenerateRandIds_spec (count : Nat) (minId maxId : Int) (choices : Nat → Nat)
    (hch : ∀ i, choices i ≤ i)
    (hcount : (count : Int) ≤ max minId maxId - min minId maxId) :
    (GenerateRandIds count minId maxId choices).length = count ∧
    (GenerateRandIds count minId maxId choices).Nodup ∧
    ∀ x ∈ GenerateRandIds count minId maxId choices,
      min minId maxId ≤ x ∧ x < max minId maxId := by
  have hlo : (if minId > maxId then maxId else minId) = min minId maxId := by
    split_ifs <;> omega
  have hgen : GenerateRandIds count minId maxId choices =
      fyLoop choices (count - 1)
        ((List.range count).map (fun k : Nat => min minId maxId + (k : Int))) := by
    simp only [GenerateRandIds]
    rw [hlo]
  have hperm : (GenerateRandIds count minId maxId choices).Perm
      ((List.range count).map (fun k : Nat => min minId maxId + (k : Int))) := by
    rw [hgen]
    rcases Nat.eq_zero_or_pos count with hc0 | hcpos
    · subst hc0
      simp [fyLoop]
    · apply fyLoop_perm choices hch
      simp only [List.length_map, List.length_range]
      omega
  have hinit_nodup :
      ((List.range count).map (fun k : Nat => min minId maxId + (k : Int))).Nodup :=
    List.Nodup.map (fun a b hab => by omega) (List.nodup_range count)
  refine ⟨?_, ?_, ?_⟩
  · rw [hperm.length_eq]
    simp
  · exact hperm.symm.nodup hinit_nodup
  · intro x hx
    obtain ⟨k, hk, rfl⟩ := List.mem_map.mp (hperm.mem_iff.mp hx)
    have hkc : (k : Int) < (count : Int) := by exact_mod_cast List.mem_range.mp hk
    constructor
    · omega
    · omega

/-- Witness for C5 at count 3, range [10, 20), all choices 0. -/
theorem GenerateRandIds_spec_witness :
    (GenerateRandIds 3 10 20 (fun _ => 0)).length = 3 ∧
    (GenerateRandIds 3 10 20 (fun _ => 0)).Nodup ∧
    ∀ x ∈ GenerateRandIds 3 10 20 (fun _ => 0),
      min (10 : Int) 20 ≤ x ∧ x < max (10 : Int) 20 :=
  GenerateRandIds_spec 3 10 20 (fun _ => 0) (fun i => Nat.zero_le i) (by decide)
